import Mathlib

/-!
Verification of the todo-list ordering engine, status state machine and
cursor resolver implemented in `src/services/todo_service.py` (class
`TodoService`), against the natural-language specification.

Shallow embedding conventions:
* the SQLite table `todos` is a `List Todo` kept in rowid (insertion) order;
  `INSERT` appends, `UPDATE ... WHERE` is a `List.map` guarded by the WHERE
  condition, `DELETE ... WHERE` is a `List.filter`, and `SELECT ... WHERE id = ?`
  with `fetchone` is `List.find?`;
* ISO-8601 timestamp strings (which compare chronologically) are modelled as
  `Nat` and each mutating operation receives the current clock value `now`
  explicitly (the source calls `datetime.utcnow().isoformat()`);
* freshly generated UUIDs are modelled by a counter `nextId` carried in the
  database state: each created row consumes one fresh identifier;
* the `order` column is an SQL INTEGER, modelled as `Int`.
-/

/-- A row of the `todos` table / the `Todo` pydantic model.  The source's
`completed` / `skipped` booleans are derived fields (`completedAt is not None`,
`skippedAt is not None`) and are therefore not stored separately here. -/
structure Todo where
  id : Nat
  title : String
  description : String
  completedAt : Option Nat
  skippedAt : Option Nat
  createdAt : Nat
  updatedAt : Nat
  order : Int
deriving Repr, DecidableEq

/-- `CreateTodoSchema`: title, description, required order (validated `ge=1`). -/
structure CreateTodoSchema where
  title : String
  description : String
  order : Int
deriving Repr, DecidableEq

/-- `UpdateTodoSchema`: id required, title/description/order optional. -/
structure UpdateTodoSchema where
  id : Nat
  title : Option String
  description : Option String
  order : Option Int
deriving Repr, DecidableEq

/-- `InsertTodoSchema`: title, description, optional order. -/
structure InsertTodoSchema where
  title : String
  description : String
  order : Option Int
deriving Repr, DecidableEq

/-- The database state: the `todos` table in rowid order plus the supply of
fresh identifiers standing in for `uuid4()`. -/
structure DB where
  rows : List Todo
  nextId : Nat
deriving Repr, DecidableEq

def emptyDB : DB := ⟨[], 0⟩

/-- The factory function `create_todo` of `src/models/todo.py`: fresh id,
`completed_at = None`, `skipped_at = None`, both timestamps set to `now`. -/
def mkTodo (id : Nat) (title description : String) (now : Nat) (order : Int) : Todo :=
  ⟨id, title, description, none, none, now, now, order⟩

/-- Python truthiness of `data.title if data.title else todo.title`: an absent
or empty string falls back to the current value. -/
def pyOr (x : Option String) (d : String) : String :=
  match x with
  | some s => if s.isEmpty then d else s
  | none => d

/-- The shift `UPDATE todos SET "order" = "order" + 1 WHERE "order" >= ?`
used by `create_todo`, `create_todos`, `insert_todo` and `insert_todos`. -/
def shiftUpFrom (p : Int) (rows : List Todo) : List Todo :=
  rows.map (fun r => if p ≤ r.order then { r with order := r.order + 1 } else r)

/-- `SELECT COALESCE(MAX("order"), 0) FROM todos`. -/
def maxOrder (db : DB) : Int :=
  db.rows.foldl (fun m r => max m r.order) 0

/-- `SELECT * FROM todos WHERE <pred> ORDER BY <key> ASC LIMIT 1`: the first
row (in rowid order) attaining the minimal key among rows satisfying `pred`.
Queries that sort descending are expressed with a negated key. -/
def selectMinStep (pred : Todo → Bool) (key : Todo → Int) (acc : Option Todo) (r : Todo) :
    Option Todo :=
  if pred r then
    match acc with
    | none => some r
    | some a => if key r < key a then some r else acc
  else acc

def selectMinBy (pred : Todo → Bool) (key : Todo → Int) (rows : List Todo) : Option Todo :=
  rows.foldl (selectMinStep pred key) none

/-- `TodoService.get_todo`: `SELECT * FROM todos WHERE id = ?`, `fetchone`. -/
def getTodo (id : Nat) (db : DB) : Option Todo :=
  db.rows.find? (fun r => r.id == id)

/-- `TodoService.create_todo`: shift rows with `"order" >= data.order` up by
one, then insert the new row at `data.order`. -/
def createTodo (data : CreateTodoSchema) (now : Nat) (db : DB) : Todo × DB :=
  let shifted := shiftUpFrom data.order db.rows
  let todo := mkTodo db.nextId data.title data.description now data.order
  (todo, ⟨shifted ++ [todo], db.nextId + 1⟩)

/-- Strict comparison used by `create_todos`' `sorted(todos_data, key=lambda x: x.order)`. -/
def createKeyLt (a b : CreateTodoSchema) : Bool := a.order < b.order

/-- Stable insertion into an already sorted list: the new element goes in
front of the first strictly greater element, hence after all equal keys. -/
def insOrdered (lt : α → α → Bool) (x : α) : List α → List α
  | [] => [x]
  | y :: ys => if lt x y then x :: y :: ys else y :: insOrdered lt x ys

/-- Stable sort (insertion sort, processing the input left to right), the
image of Python's stable `sorted`. -/
def stableSort (lt : α → α → Bool) (l : List α) : List α :=
  l.foldl (fun acc x => insOrdered lt x acc) []

/-- `TodoService.create_todos`: sort the batch by `order` ascending, then run
the single-insert body (shift, then insert) once per entry. -/
def createTodosStep (now : Nat) (acc : List Todo × DB) (data : CreateTodoSchema) :
    List Todo × DB :=
  let shifted := shiftUpFrom data.order acc.2.rows
  let todo := mkTodo acc.2.nextId data.title data.description now data.order
  (acc.1 ++ [todo], ⟨shifted ++ [todo], acc.2.nextId + 1⟩)

def createTodos (batch : List CreateTodoSchema) (now : Nat) (db : DB) : List Todo × DB :=
  (stableSort createKeyLt batch).foldl (createTodosStep now) ([], db)

/-- `TodoService.update_todo`: fetch the row; if absent return `None`.  If a
different order is requested, ripple the rows strictly between the old and new
positions (excluding the row itself), then write title/description/order (with
Python-truthiness fallbacks) and refresh `updatedAt`. -/
def updateTodo (data : UpdateTodoSchema) (now : Nat) (db : DB) : Option Todo × DB :=
  match getTodo data.id db with
  | none => (none, db)
  | some todo =>
    let rows1 : List Todo :=
      match data.order with
      | some newOrder =>
        if newOrder ≠ todo.order then
          if todo.order < newOrder then
            db.rows.map (fun r =>
              if todo.order < r.order ∧ r.order ≤ newOrder ∧ r.id ≠ todo.id then
                { r with order := r.order - 1 }
              else r)
          else
            db.rows.map (fun r =>
              if newOrder ≤ r.order ∧ r.order < todo.order ∧ r.id ≠ todo.id then
                { r with order := r.order + 1 }
              else r)
        else db.rows
      | none => db.rows
    let finalOrder := data.order.getD todo.order
    let rows2 := rows1.map (fun r =>
      if r.id = todo.id then
        { r with
            title := pyOr data.title todo.title
            description := pyOr data.description todo.description
            order := finalOrder
            updatedAt := now }
      else r)
    let db' : DB := ⟨rows2, db.nextId⟩
    (getTodo data.id db', db')

/-- `TodoService.complete_todo`: set `completedAt`, clear `skippedAt`,
refresh `updatedAt`; `None` when the id does not exist. -/
def completeTodo (id : Nat) (now : Nat) (db : DB) : Option Todo × DB :=
  match getTodo id db with
  | none => (none, db)
  | some _ =>
    let db' : DB :=
      ⟨db.rows.map (fun r =>
        if r.id = id then
          { r with completedAt := some now, skippedAt := none, updatedAt := now }
        else r), db.nextId⟩
    (getTodo id db', db')

/-- `TodoService.skip_todos`: for each id, if the todo exists and is not
completed, set `skippedAt` (the SQL `WHERE` repeats the `completedAt IS NULL`
guard) and append the re-fetched row to the result. -/
def skipStep (now : Nat) (acc : List (Option Todo) × DB) (i : Nat) :
    List (Option Todo) × DB :=
  match getTodo i acc.2 with
  | some t =>
    if t.completedAt.isNone then
      let db' : DB :=
        ⟨acc.2.rows.map (fun r =>
          if r.id = i ∧ r.completedAt = none then
            { r with skippedAt := some now, updatedAt := now }
          else r), acc.2.nextId⟩
      (acc.1 ++ [getTodo i db'], db')
    else acc
  | none => acc

def skipTodos (ids : List Nat) (now : Nat) (db : DB) : List (Option Todo) × DB :=
  ids.foldl (skipStep now) ([], db)

/-- `TodoService.mark_todos_not_completed`: for each existing id, clear both
`completedAt` and `skippedAt`, refresh `updatedAt`, append the re-fetched row. -/
def markStep (now : Nat) (acc : List (Option Todo) × DB) (i : Nat) :
    List (Option Todo) × DB :=
  match getTodo i acc.2 with
  | some _ =>
    let db' : DB :=
      ⟨acc.2.rows.map (fun r =>
        if r.id = i then
          { r with completedAt := none, skippedAt := none, updatedAt := now }
        else r), acc.2.nextId⟩
    (acc.1 ++ [getTodo i db'], db')
  | none => acc

def markTodosNotCompleted (ids : List Nat) (now : Nat) (db : DB) : List (Option Todo) × DB :=
  ids.foldl (markStep now) ([], db)

/-- `TodoService.delete_todo`: `DELETE FROM todos WHERE id = ?`; the returned
flag is `cursor.rowcount > 0`, i.e. whether some row matched.  No reflow of
the remaining `order` values is performed. -/
def deleteTodo (id : Nat) (db : DB) : Bool × DB :=
  (db.rows.any (fun r => r.id == id), ⟨db.rows.filter (fun r => !(r.id == id)), db.nextId⟩)

/-- `TodoService.insert_todo`: the insert position is the requested order, or
`COALESCE(MAX("order"), 0) + 1` when absent; then shift and insert as in
`create_todo`. -/
def insertTodo (data : InsertTodoSchema) (now : Nat) (db : DB) : Todo × DB :=
  let insertOrder :=
    match data.order with
    | some o => o
    | none => maxOrder db + 1
  let shifted := shiftUpFrom insertOrder db.rows
  let todo := mkTodo db.nextId data.title data.description now insertOrder
  (todo, ⟨shifted ++ [todo], db.nextId + 1⟩)

/-- Strict comparison realising `insert_todos`' sort key
`(x.order is None, x.order or 0)`: positioned entries ascending by order,
all positioned before all unpositioned, unpositioned mutually tied. -/
def insertKeyLt (a b : InsertTodoSchema) : Bool :=
  match a.order, b.order with
  | some x, some y => x < y
  | some _, none => true
  | none, _ => false

/-- `TodoService.insert_todos`: stable-sort the batch by the key above, then
run the single-insert body (resolve position, shift, insert) once per entry. -/
def insertTodosStep (now : Nat) (acc : List Todo × DB) (data : InsertTodoSchema) :
    List Todo × DB :=
  let insertOrder :=
    match data.order with
    | some o => o
    | none => maxOrder acc.2 + 1
  let shifted := shiftUpFrom insertOrder acc.2.rows
  let todo := mkTodo acc.2.nextId data.title data.description now insertOrder
  (acc.1 ++ [todo], ⟨shifted ++ [todo], acc.2.nextId + 1⟩)

def insertTodos (batch : List InsertTodoSchema) (now : Nat) (db : DB) : List Todo × DB :=
  (stableSort insertKeyLt batch).foldl (insertTodosStep now) ([], db)

/-- `TodoService.get_next_todo_after_last_completed`:
1. `SELECT * WHERE completedAt IS NOT NULL ORDER BY completedAt DESC LIMIT 1`
   (the most recently completed row — maximal timestamp, not maximal order);
2. if none, `SELECT * WHERE completedAt IS NULL ORDER BY "order" ASC LIMIT 1`;
3. otherwise `SELECT * WHERE "order" > ? AND completedAt IS NULL ORDER BY
   "order" ASC LIMIT 1`.  Note both scans admit skipped rows (their
   `completedAt` is NULL). -/
def getNextTodoAfterLastCompleted (db : DB) : Option Todo :=
  match selectMinBy (fun r => r.completedAt.isSome)
      (fun r => -(r.completedAt.getD 0 : Int)) db.rows with
  | none =>
    selectMinBy (fun r => r.completedAt.isNone) (fun r => r.order) db.rows
  | some lastCompleted =>
    selectMinBy (fun r => r.completedAt.isNone && decide (lastCompleted.order < r.order))
      (fun r => r.order) db.rows

/-- The mutating service operations quantified over by the density claim:
single create, single insert, update (which subsumes "move"), delete. -/
inductive TodoOp where
  | create (data : CreateTodoSchema)
  | insert (data : InsertTodoSchema)
  | update (data : UpdateTodoSchema)
  | delete (id : Nat)
deriving Repr, DecidableEq

/-- Resulting database state of one service operation. -/
def applyOp (op : TodoOp) (now : Nat) (db : DB) : DB :=
  match op with
  | .create d => (createTodo d now db).2
  | .insert d => (insertTodo d now db).2
  | .update d => (updateTodo d now db).2
  | .delete i => (deleteTodo i db).2

/-- Run a sequence of operations, advancing the clock by one per operation. -/
def applyOps : List TodoOp → Nat → DB → DB
  | [], _, db => db
  | op :: rest, now, db => applyOps rest (now + 1) (applyOp op now db)

/-- Number of rows whose `order` equals `k`. -/
def ordCount (k : Int) : List Todo → Nat
  | [] => 0
  | r :: rs => (if r.order = k then 1 else 0) + ordCount k rs

/-- Density (spec invariant I1): the multiset of `order` values is exactly
`{1, …, N}` — each of `1..N` occurs exactly once and every row's order lies
in `[1, N]`. -/
def isDense (db : DB) : Bool :=
  (List.range db.rows.length).all (fun i => ordCount ((i : Int) + 1) db.rows == 1) &&
    db.rows.all (fun r => 1 ≤ r.order && r.order ≤ (db.rows.length : Int))

/-- An operation whose requested position is within the spec's accepted
range: `[1, N+1]` for create/insert (or no position at all), `[1, N]` for a
move.  Deletions are outside the scope of the amended density claim, because
`delete_todo` performs no reflow. -/
def opWithinRange (op : TodoOp) (db : DB) : Bool :=
  match op with
  | .create d => 1 ≤ d.order && d.order ≤ (db.rows.length : Int) + 1
  | .insert d =>
    match d.order with
    | none => true
    | some p => 1 ≤ p && p ≤ (db.rows.length : Int) + 1
  | .update d =>
    match d.order with
    | none => true
    | some t => 1 ≤ t && t ≤ (db.rows.length : Int)
  | .delete _ => false

/-- Every operation of the sequence is within range for the state it is
applied to. -/
def validRun : List TodoOp → Nat → DB → Bool
  | [], _, _ => true
  | op :: rest, now, db => opWithinRange op db && validRun rest (now + 1) (applyOp op now db)

/-- The internal invariant carried through operation sequences: density in
counting form, pairwise-distinct row ids, and freshness of `nextId`. -/
def DBInv (db : DB) : Prop :=
  (∀ k : Int, ordCount k db.rows = if 1 ≤ k ∧ k ≤ (db.rows.length : Int) then 1 else 0) ∧
    (db.rows.map (fun r => r.id)).Nodup ∧
    ∀ r ∈ db.rows, r.id < db.nextId

/-- The cursor rule as the specification words it (§4.4 / claim C3): the
anchor is the *Completed item with the maximum `order`*, and the result must
be the *Active* (neither completed nor skipped) item with the smallest order
strictly above the anchor, or none.  Stated over result ids so that it can be
evaluated.  Used only to compare the code's resolver against the spec. -/
def cursorSpecMaxOrderAnchor (db : DB) (res : Option Todo) : Bool :=
  match selectMinBy (fun r => r.completedAt.isSome) (fun r => -r.order) db.rows with
  | none => true
  | some anchor =>
    res.map (fun r => r.id) ==
      (selectMinBy
        (fun r => r.completedAt.isNone && r.skippedAt.isNone && decide (anchor.order < r.order))
        (fun r => r.order) db.rows).map (fun r => r.id)

/-- Two active rows: id 0 at order 1, id 1 at order 2. -/
def dbTwo : DB := (createTodo ⟨"b", "b", 2⟩ 1 (createTodo ⟨"a", "a", 1⟩ 0 emptyDB).2).2

/-- One active row, id 0, order 1, timestamps 0. -/
def dbOne : DB := (createTodo ⟨"a", "a", 1⟩ 0 emptyDB).2

/-- One row at order 5 (a non-dense but reachable state, since requested
positions are never range-checked). -/
def dbFive : DB := (createTodo ⟨"a", "a", 5⟩ 0 emptyDB).2

/-- Four rows at orders 1..4; the row at order 3 was completed at time 5 and
the row at order 1 later, at time 10; orders 2 and 4 are active. -/
def dbCursor : DB :=
  (completeTodo 0 10 (completeTodo 2 5 (applyOps
    [.create ⟨"t1", "d", 1⟩, .create ⟨"t2", "d", 2⟩,
     .create ⟨"t3", "d", 3⟩, .create ⟨"t4", "d", 4⟩] 0 emptyDB)).2).2

/-- A single skipped row: id 0, order 1, skipped at time 1, never completed. -/
def dbSkipOne : DB := (skipTodos [0] 1 (createTodo ⟨"t1", "d", 1⟩ 0 emptyDB).2).2

/-- A single row, completed at time 2. -/
def dbDone : DB := (completeTodo 0 2 dbOne).2

/-! ### Counting lemmas -/

theorem ordCount_nil (k : Int) : ordCount k [] = 0 := rfl

theorem ordCount_cons (k : Int) (r : Todo) (l : List Todo) :
    ordCount k (r :: l) = (if r.order = k then 1 else 0) + ordCount k l := rfl

theorem ordCount_append (k : Int) (l1 l2 : List Todo) :
    ordCount k (l1 ++ l2) = ordCount k l1 + ordCount k l2 := by
  induction l1 with
  | nil => simp [ordCount]
  | cons r l ih => simp [ordCount_cons, ih]; omega

theorem ordCount_pos_of_mem {r : Todo} {l : List Todo} (h : r ∈ l) :
    1 ≤ ordCount r.order l := by
  induction l with
  | nil => cases h
  | cons s l ih =>
    rcases List.mem_cons.1 h with rfl | h'
    · simp [ordCount_cons]
    · have := ih h'
      simp only [ordCount_cons]
      omega

theorem exists_mem_of_ordCount_pos {k : Int} {l : List Todo} (h : 0 < ordCount k l) :
    ∃ r ∈ l, r.order = k := by
  induction l with
  | nil => simp [ordCount] at h
  | cons s l ih =>
    by_cases hs : s.order = k
    · exact ⟨s, List.mem_cons_self s l, hs⟩
    · simp only [ordCount_cons, if_neg hs, Nat.zero_add] at h
      obtain ⟨r, hr, hrk⟩ := ih h
      exact ⟨r, List.mem_cons_of_mem _ hr, hrk⟩

/-- Effect of the global shift `"order" = "order" + 1 WHERE "order" >= p` on
the number of rows at each order value. -/
theorem ordCount_shiftUpFrom (p k : Int) (l : List Todo) :
    ordCount k (shiftUpFrom p l) =
      if k < p then ordCount k l else if k = p then 0 else ordCount (k - 1) l := by
  induction l with
  | nil => simp [shiftUpFrom, ordCount]
  | cons r l ih =>
    simp only [shiftUpFrom, List.map_cons] at ih ⊢
    by_cases hr : p ≤ r.order
    · simp only [if_pos hr, ordCount_cons] at ih ⊢
      split_ifs with h1 h2 <;> split_ifs at ih <;> omega
    · simp only [if_neg hr, ordCount_cons] at ih ⊢
      split_ifs with h1 h2 <;> split_ifs at ih <;> omega

/-- Effect on order counts of the downward ripple
`"order" = "order" - 1 WHERE "order" > o AND "order" <= t` (move up, `o < t`),
on a list of rows the ripple applies to unconditionally. -/
theorem ordCount_rippleDown (o t k : Int) (hot : o < t) (l : List Todo) :
    ordCount k (l.map (fun r =>
        if o < r.order ∧ r.order ≤ t then { r with order := r.order - 1 } else r)) =
      if k < o ∨ t < k then ordCount k l
      else if k = o then ordCount o l + ordCount (o + 1) l
      else if k < t then ordCount (k + 1) l
      else 0 := by
  induction l with
  | nil => simp only [List.map_nil]; split_ifs <;> simp [ordCount]
  | cons r l ih =>
    simp only [List.map_cons]
    by_cases hr : o < r.order ∧ r.order ≤ t
    · simp only [if_pos hr, ordCount_cons] at ih ⊢
      split_ifs with h1 h2 h3 <;> split_ifs at ih <;> omega
    · simp only [if_neg hr, ordCount_cons] at ih ⊢
      rw [Decidable.not_and_iff_or_not] at hr
      split_ifs with h1 h2 h3 <;> split_ifs at ih <;> omega

/-- Effect on order counts of the upward ripple
`"order" = "order" + 1 WHERE "order" >= t AND "order" < o` (move down, `t < o`),
on a list of rows the ripple applies to unconditionally. -/
theorem ordCount_rippleUp (t o k : Int) (hto : t < o) (l : List Todo) :
    ordCount k (l.map (fun r =>
        if t ≤ r.order ∧ r.order < o then { r with order := r.order + 1 } else r)) =
      if k < t ∨ o < k then ordCount k l
      else if k = o then ordCount (o - 1) l + ordCount o l
      else if t < k then ordCount (k - 1) l
      else 0 := by
  induction l with
  | nil => simp only [List.map_nil]; split_ifs <;> simp [ordCount]
  | cons r l ih =>
    simp only [List.map_cons]
    by_cases hr : t ≤ r.order ∧ r.order < o
    · simp only [if_pos hr, ordCount_cons] at ih ⊢
      split_ifs with h1 h2 h3 <;> split_ifs at ih <;> omega
    · simp only [if_neg hr, ordCount_cons] at ih ⊢
      rw [Decidable.not_and_iff_or_not] at hr
      split_ifs with h1 h2 h3 <;> split_ifs at ih <;> omega

/-! ### `maxOrder`, `getTodo` and `selectMinBy` lemmas -/

theorem foldl_max_spec (l : List Todo) : ∀ a : Int,
    a ≤ l.foldl (fun m r => max m r.order) a ∧
      (∀ r ∈ l, r.order ≤ l.foldl (fun m r => max m r.order) a) ∧
      (l.foldl (fun m r => max m r.order) a = a ∨
        ∃ r ∈ l, l.foldl (fun m r => max m r.order) a = r.order) := by
  induction l with
  | nil => intro a; refine ⟨le_refl a, by simp, Or.inl rfl⟩
  | cons s l ih =>
    intro a
    obtain ⟨h1, h2, h3⟩ := ih (max a s.order)
    simp only [List.foldl_cons]
    refine ⟨le_trans (le_max_left a s.order) h1, ?_, ?_⟩
    · intro r hr
      rcases List.mem_cons.1 hr with rfl | hr'
      · exact le_trans (le_max_right a r.order) h1
      · exact h2 r hr'
    · rcases h3 with h | ⟨r, hr, hre⟩
      · rcases max_choice a s.order with hm | hm <;> rw [h, hm]
        · exact Or.inl rfl
        · exact Or.inr ⟨s, List.mem_cons_self s l, rfl⟩
      · exact Or.inr ⟨r, List.mem_cons_of_mem _ hr, hre⟩

/-- `maxOrder` is in a dense database exactly the row count. -/
theorem maxOrder_of_denseCount {db : DB}
    (hc : ∀ k : Int, ordCount k db.rows = if 1 ≤ k ∧ k ≤ (db.rows.length : Int) then 1 else 0) :
    maxOrder db = (db.rows.length : Int) := by
  obtain ⟨h1, h2, h3⟩ := foldl_max_spec db.rows 0
  have hub : ∀ r ∈ db.rows, r.order ≤ (db.rows.length : Int) := by
    intro r hr
    have hpos := ordCount_pos_of_mem hr
    rw [hc r.order] at hpos
    split_ifs at hpos with h
    · exact h.2
    · omega
  by_cases hN : db.rows.length = 0
  · have : db.rows = [] := List.length_eq_zero.1 hN
    simp [maxOrder, this, hN]
  · have hmem : ∃ r ∈ db.rows, r.order = (db.rows.length : Int) := by
      apply exists_mem_of_ordCount_pos
      rw [hc]
      have h1N : (1:Int) ≤ (db.rows.length : Int) := by exact_mod_cast Nat.one_le_iff_ne_zero.2 hN
      simp [h1N]
    obtain ⟨r, hr, hre⟩ := hmem
    have hle : (db.rows.length : Int) ≤ maxOrder db := hre ▸ h2 r hr
    have hge : maxOrder db ≤ (db.rows.length : Int) := by
      rcases h3 with h | ⟨s, hs, hse⟩
      · rw [maxOrder, h]; exact_mod_cast Nat.zero_le _
      · rw [maxOrder, hse]; exact hub s hs
    exact le_antisymm hge hle

/-- `find?` decomposition at the list level: the found row is the first match. -/
theorem find_id_decomp {x : Nat} : ∀ {l : List Todo} {X : Todo},
    l.find? (fun r => r.id == x) = some X →
    X.id = x ∧ ∃ l1 l2, l = l1 ++ X :: l2 ∧ ∀ r ∈ l1, r.id ≠ x := by
  intro l
  induction l with
  | nil => intro X h; simp at h
  | cons s l ih =>
    intro X h
    by_cases hs : s.id = x
    · rw [List.find?_cons_of_pos _ (by simpa using hs)] at h
      cases h
      exact ⟨hs, [], l, rfl, by simp⟩
    · rw [List.find?_cons_of_neg _ (by simpa using hs)] at h
      obtain ⟨hx, l1, l2, hsplit, hnone⟩ := ih h
      refine ⟨hx, s :: l1, l2, by rw [hsplit]; rfl, ?_⟩
      intro r hr
      rcases List.mem_cons.1 hr with rfl | hr'
      · exact hs
      · exact hnone r hr'

/-- `get_todo` decomposition: the returned row is the first row with the id. -/
theorem getTodo_decomp {x : Nat} {db : DB} {X : Todo} (h : getTodo x db = some X) :
    X.id = x ∧ ∃ l1 l2, db.rows = l1 ++ X :: l2 ∧ ∀ r ∈ l1, r.id ≠ x :=
  find_id_decomp h

/-- With pairwise-distinct ids, the found row is the only row bearing its id. -/
theorem getTodo_decomp_nodup {x : Nat} {db : DB} {X : Todo} (h : getTodo x db = some X)
    (hnd : (db.rows.map (fun r => r.id)).Nodup) :
    X.id = x ∧ ∃ l1 l2, db.rows = l1 ++ X :: l2 ∧ (∀ r ∈ l1, r.id ≠ x) ∧ ∀ r ∈ l2, r.id ≠ x := by
  obtain ⟨hx, l1, l2, hsplit, hl1⟩ := getTodo_decomp h
  refine ⟨hx, l1, l2, hsplit, hl1, ?_⟩
  intro r hr
  rw [hsplit] at hnd
  simp only [List.map_append, List.map_cons, List.nodup_append] at hnd
  have hcons := hnd.2.1
  rw [List.nodup_cons] at hcons
  intro hre
  exact hcons.1 (by rw [hx, ← hre]; exact List.mem_map_of_mem _ hr)

/-! ### Properties of the `LIMIT 1` selector -/

theorem selectMin_go_isSome (pred : Todo → Bool) (key : Todo → Int) :
    ∀ (l : List Todo) (a : Todo),
      (l.foldl (selectMinStep pred key) (some a)).isSome = true := by
  intro l
  induction l with
  | nil => intro a; rfl
  | cons r l ih =>
    intro a
    simp only [List.foldl_cons, selectMinStep]
    by_cases hp : pred r
    · simp only [if_pos hp]
      by_cases hk : key r < key a
      · simp only [if_pos hk]; exact ih r
      · simp only [if_neg hk]; exact ih a
    · simp only [if_neg hp]; exact ih a

theorem selectMin_go_spec (pred : Todo → Bool) (key : Todo → Int) :
    ∀ (l : List Todo) (a : Todo), pred a = true →
      ∀ b, l.foldl (selectMinStep pred key) (some a) = some b →
        pred b = true ∧ (b = a ∨ b ∈ l) ∧ key b ≤ key a ∧
          ∀ r ∈ l, pred r = true → key b ≤ key r := by
  intro l
  induction l with
  | nil =>
    intro a ha b h
    cases h
    exact ⟨ha, Or.inl rfl, le_refl _, by simp⟩
  | cons r l ih =>
    intro a ha b h
    simp only [List.foldl_cons, selectMinStep] at h
    by_cases hp : pred r
    · simp only [if_pos hp] at h
      by_cases hk : key r < key a
      · simp only [if_pos hk] at h
        obtain ⟨h1, h2, h3, h4⟩ := ih r hp b h
        refine ⟨h1, ?_, le_trans h3 (le_of_lt hk), ?_⟩
        · rcases h2 with rfl | h2'
          · exact Or.inr (List.mem_cons_self _ _)
          · exact Or.inr (List.mem_cons_of_mem _ h2')
        · intro s hs hps
          rcases List.mem_cons.1 hs with rfl | hs'
          · exact h3
          · exact h4 s hs' hps
      · simp only [if_neg hk] at h
        obtain ⟨h1, h2, h3, h4⟩ := ih a ha b h
        refine ⟨h1, ?_, h3, ?_⟩
        · rcases h2 with rfl | h2'
          · exact Or.inl rfl
          · exact Or.inr (List.mem_cons_of_mem _ h2')
        · intro s hs hps
          rcases List.mem_cons.1 hs with rfl | hs'
          · exact le_trans h3 (not_lt.1 hk)
          · exact h4 s hs' hps
    · simp only [if_neg hp] at h
      obtain ⟨h1, h2, h3, h4⟩ := ih a ha b h
      refine ⟨h1, ?_, h3, ?_⟩
      · rcases h2 with rfl | h2'
        · exact Or.inl rfl
        · exact Or.inr (List.mem_cons_of_mem _ h2')
      · intro s hs hps
        rcases List.mem_cons.1 hs with rfl | hs'
        · exact absurd hps hp
        · exact h4 s hs' hps

/-- Full characterisation of the `LIMIT 1` selector: a `none` result means no
row qualifies; a `some` result is a qualifying row with minimal key. -/
theorem selectMinBy_spec (pred : Todo → Bool) (key : Todo → Int) (l : List Todo) :
    (selectMinBy pred key l = none → ∀ r ∈ l, pred r = false) ∧
      (∀ b, selectMinBy pred key l = some b →
        b ∈ l ∧ pred b = true ∧ ∀ r ∈ l, pred r = true → key b ≤ key r) := by
  induction l with
  | nil => exact ⟨fun _ r hr => absurd hr (List.not_mem_nil r), fun b h => by cases h⟩
  | cons r l ih =>
    unfold selectMinBy at ih ⊢
    simp only [List.foldl_cons, selectMinStep]
    by_cases hp : pred r
    · simp only [if_pos hp]
      constructor
      · intro h
        have := selectMin_go_isSome pred key l r
        rw [h] at this
        cases this
      · intro b h
        obtain ⟨h1, h2, h3, h4⟩ := selectMin_go_spec pred key l r hp b h
        refine ⟨?_, h1, ?_⟩
        · rcases h2 with rfl | h2'
          · exact List.mem_cons_self _ _
          · exact List.mem_cons_of_mem _ h2'
        · intro s hs hps
          rcases List.mem_cons.1 hs with rfl | hs'
          · exact h3
          · exact h4 s hs' hps
    · simp only [if_neg hp]
      constructor
      · intro h s hs
        rcases List.mem_cons.1 hs with rfl | hs'
        · exact Bool.eq_false_iff.2 hp
        · exact ih.1 h s hs'
      · intro b h
        obtain ⟨h1, h2, h3⟩ := ih.2 b h
        refine ⟨List.mem_cons_of_mem _ h1, h2, ?_⟩
        intro s hs hps
        rcases List.mem_cons.1 hs with rfl | hs'
        · exact absurd hps hp
        · exact h3 s hs' hps

/-- A qualifying row forces a `some` result. -/
theorem selectMinBy_isSome {pred : Todo → Bool} {key : Todo → Int} {l : List Todo}
    {r : Todo} (hr : r ∈ l) (hp : pred r = true) :
    (selectMinBy pred key l).isSome = true := by
  cases h : selectMinBy pred key l with
  | none => rw [(selectMinBy_spec pred key l).1 h r hr] at hp; cases hp
  | some b => rfl

/-! ### Lemmas about id-preserving row updates -/

theorem find_id_map {x : Nat} (f : Todo → Todo) (hf : ∀ r, (f r).id = r.id) :
    ∀ l : List Todo,
      (l.map f).find? (fun r => r.id == x) = (l.find? (fun r => r.id == x)).map f := by
  intro l
  induction l with
  | nil => rfl
  | cons s l ih =>
    simp only [List.map_cons]
    by_cases hs : s.id = x
    · rw [List.find?_cons_of_pos _ (by simpa [hf] using hs),
        List.find?_cons_of_pos _ (by simpa using hs)]
      rfl
    · rw [List.find?_cons_of_neg _ (by simpa [hf] using hs),
        List.find?_cons_of_neg _ (by simpa using hs)]
      exact ih

theorem map_proj_of_preserved {α : Type} (f : Todo → Todo) (proj : Todo → α)
    (hp : ∀ r, proj (f r) = proj r) (l : List Todo) :
    (l.map f).map proj = l.map proj := by
  rw [List.map_map]
  exact List.map_congr_left fun a _ => hp a

/-! ### Status transitions never touch `order` -/

theorem skip_go_proj (now : Nat) : ∀ (ids : List Nat) (acc : List (Option Todo) × DB),
    ((ids.foldl (skipStep now) acc).2.rows.map (fun r => (r.id, r.order))) =
      acc.2.rows.map (fun r => (r.id, r.order)) := by
  intro ids
  induction ids with
  | nil => intro acc; rfl
  | cons i ids ih =>
    intro acc
    rw [List.foldl_cons, ih]
    cases hg : getTodo i acc.2 with
    | none => simp [skipStep, hg]
    | some t =>
      by_cases hc : t.completedAt.isNone
      · simp only [skipStep, hg, if_pos hc]
        exact map_proj_of_preserved _ _ (fun r => by by_cases h : r.id = i ∧ r.completedAt = none <;> simp [h]) _
      · simp [skipStep, hg, hc]

theorem mark_go_proj (now : Nat) : ∀ (ids : List Nat) (acc : List (Option Todo) × DB),
    ((ids.foldl (markStep now) acc).2.rows.map (fun r => (r.id, r.order))) =
      acc.2.rows.map (fun r => (r.id, r.order)) := by
  intro ids
  induction ids with
  | nil => intro acc; rfl
  | cons i ids ih =>
    intro acc
    rw [List.foldl_cons, ih]
    cases hg : getTodo i acc.2 with
    | none => simp [markStep, hg]
    | some t =>
      simp only [markStep, hg]
      exact map_proj_of_preserved _ _ (fun r => by by_cases h : r.id = i <;> simp [h]) _

theorem completeTodo_proj (x now : Nat) (db : DB) :
    ((completeTodo x now db).2.rows.map (fun r => (r.id, r.order))) =
      db.rows.map (fun r => (r.id, r.order)) := by
  cases hg : getTodo x db with
  | none => simp [completeTodo, hg]
  | some t =>
    simp only [completeTodo, hg]
    exact map_proj_of_preserved _ _ (fun r => by by_cases h : r.id = x <;> simp [h]) _

/-- C9 — Status/order orthogonality: `complete_todo`, `skip_todos` and
`mark_todos_not_completed` leave the `order` (and `id`) of every row — the
transitioned item and all others — unchanged; the row sequence itself is
preserved position by position. -/
theorem statusTransitionsPreserveOrders (x : Nat) (ids : List Nat) (now : Nat) (db : DB) :
    ((completeTodo x now db).2.rows.map (fun r => (r.id, r.order)) =
        db.rows.map (fun r => (r.id, r.order))) ∧
      ((skipTodos ids now db).2.rows.map (fun r => (r.id, r.order)) =
        db.rows.map (fun r => (r.id, r.order))) ∧
      ((markTodosNotCompleted ids now db).2.rows.map (fun r => (r.id, r.order)) =
        db.rows.map (fun r => (r.id, r.order))) :=
  ⟨completeTodo_proj x now db, skip_go_proj now ids ([], db), mark_go_proj now ids ([], db)⟩

/-! ### Deletion -/

/-- C2 counterexample — the claim "delete(X at order o) decrements the order
of every item whose order is greater than o" is false: in a two-row database
(id 0 at order 1, id 1 at order 2), deleting id 0 leaves the surviving row at
order 2, not at the order 1 the claim demands. -/
theorem deleteNoReflowCex :
    (deleteTodo 0 dbTwo).2.rows.map (fun r => (r.id, r.order)) = [(1, 2)] ∧
      ((1 : Nat), (1 : Int)) ≠ ((1 : Nat), (2 : Int)) := by
  exact ⟨by decide, by decide⟩

/-- C2 amended — `delete_todo` only removes the matching row (`DELETE FROM
todos WHERE id = ?`): every surviving row keeps its exact record, including
its `order`; no decrement of higher orders happens.  The returned flag is
`rowcount > 0`, i.e. whether some row had the id. -/
theorem deleteTodoNoReflow (x : Nat) (db : DB) :
    (deleteTodo x db).2.rows = db.rows.filter (fun r => !(r.id == x)) ∧
      (deleteTodo x db).1 = db.rows.any (fun r => r.id == x) ∧
      (∀ r ∈ db.rows, r.id ≠ x → r ∈ (deleteTodo x db).2.rows) ∧
      (∀ r ∈ (deleteTodo x db).2.rows, r ∈ db.rows) := by
  refine ⟨rfl, rfl, ?_, ?_⟩
  · intro r hr hne
    simp only [deleteTodo, List.mem_filter]
    exact ⟨hr, by simpa using hne⟩
  · intro r hr
    simp only [deleteTodo, List.mem_filter] at hr
    exact hr.1

/-- Witness for the amended C2 theorem at a concrete database. -/
theorem deleteTodoNoReflowW :
    (deleteTodo 0 dbTwo).2.rows = dbTwo.rows.filter (fun r => !(r.id == 0)) ∧
      (deleteTodo 0 dbTwo).1 = dbTwo.rows.any (fun r => r.id == 0) ∧
      (∀ r ∈ dbTwo.rows, r.id ≠ 0 → r ∈ (deleteTodo 0 dbTwo).2.rows) ∧
      (∀ r ∈ (deleteTodo 0 dbTwo).2.rows, r ∈ dbTwo.rows) :=
  deleteTodoNoReflow 0 dbTwo

/-! ### Insertion at the end -/

theorem shiftUpFrom_above_max (db : DB) :
    shiftUpFrom (maxOrder db + 1) db.rows = db.rows := by
  unfold shiftUpFrom
  have h2 : ∀ r ∈ db.rows, r.order ≤ maxOrder db := (foldl_max_spec db.rows 0).2.1
  have hid : ∀ r ∈ db.rows,
      (if maxOrder db + 1 ≤ r.order then { r with order := r.order + 1 } else r) = r := by
    intro r hr
    rw [if_neg]
    have := h2 r hr
    omega
  rw [List.map_congr_left hid, List.map_id']

/-- C10 — end-insert semantics: `insert_todo` without a requested position
places the new row at `COALESCE(MAX("order"), 0) + 1` — one beyond the
current *maximum* order — appending it without shifting any existing row
(every existing row is preserved verbatim).  On the non-dense (but reachable)
state `dbFive` (a single row at order 5) this is 6, which differs from
count + 1 = 2. -/
theorem insertTodoAtEnd (title desc : String) (now : Nat) (db : DB) :
    (insertTodo ⟨title, desc, none⟩ now db).1.order = maxOrder db + 1 ∧
      (insertTodo ⟨title, desc, none⟩ now db).2.rows =
        db.rows ++ [(insertTodo ⟨title, desc, none⟩ now db).1] ∧
      maxOrder dbFive = 5 ∧ dbFive.rows.length = 1 ∧
      maxOrder dbFive + 1 ≠ (dbFive.rows.length : Int) + 1 := by
  refine ⟨rfl, ?_, by decide, by decide, by decide⟩
  show shiftUpFrom (maxOrder db + 1) db.rows ++ _ = _
  rw [shiftUpFrom_above_max]
  rfl

/-! ### No range validation on requested positions -/

theorem getTodo_map_id {x : Nat} (f : Todo → Todo) (hf : ∀ r, (f r).id = r.id)
    (l : List Todo) (n : Nat) :
    getTodo x ⟨l.map f, n⟩ = (getTodo x ⟨l, n⟩).map f :=
  find_id_map f hf l

/-- C5 counterexample — the claim "an insert requesting a position outside
`[1, N+1]` is rejected as a validation error, leaving every item unchanged"
is false: on the empty store (N = 0), creating at order 5 is accepted and
produces a row at order 5. -/
theorem outOfRangeAcceptedCex :
    (createTodo ⟨"a", "a", 5⟩ 0 emptyDB).2.rows.map (fun r => r.order) = [5] ∧
      ¬(1 ≤ (5 : Int) ∧ (5 : Int) ≤ (emptyDB.rows.length : Int) + 1) :=
  ⟨by decide, by decide⟩

/-- C5 amended — the service never range-checks a requested position against
the item count (only `order ≥ 1` is enforced upstream by the pydantic
schemas): `create_todo` always inserts a row at exactly the requested order,
growing the table by one, for *any* requested order; and `update_todo` on an
existing id always applies the move and reports success for *any* target
order.  Out-of-range requests are therefore executed, not rejected. -/
theorem noPositionRangeCheck (d : CreateTodoSchema) (now : Nat) (db : DB)
    (x : Nat) (t : Int) (X : Todo) :
    ((createTodo d now db).2.rows.length = db.rows.length + 1 ∧
        (createTodo d now db).1.order = d.order ∧
        (createTodo d now db).1 ∈ (createTodo d now db).2.rows) ∧
      (getTodo x db = some X →
        (updateTodo ⟨x, none, none, some t⟩ now db).1.isSome = true) := by
  constructor
  · refine ⟨?_, rfl, ?_⟩
    · simp [createTodo, shiftUpFrom]
    · exact List.mem_append_right _ (List.mem_singleton.2 rfl)
  · intro hX
    have hXid : X.id = x := (getTodo_decomp hX).1
    simp only [updateTodo, hX]
    by_cases h1 : t ≠ X.order
    · by_cases h2 : X.order < t
      · rw [if_pos h1, if_pos h2, getTodo_map_id _ (fun r => by by_cases h : r.id = X.id <;> simp [h]) _ db.nextId,
          getTodo_map_id _ (fun r => by by_cases h : X.order < r.order ∧ r.order ≤ t ∧ r.id ≠ X.id <;> simp [h]) _ db.nextId]
        cases hg : getTodo x ⟨db.rows, db.nextId⟩ with
        | none => rw [show (⟨db.rows, db.nextId⟩ : DB) = db from rfl] at hg; rw [hg] at hX; cases hX
        | some b => rfl
      · rw [if_pos h1, if_neg h2, getTodo_map_id _ (fun r => by by_cases h : r.id = X.id <;> simp [h]) _ db.nextId,
          getTodo_map_id _ (fun r => by by_cases h : t ≤ r.order ∧ r.order < X.order ∧ r.id ≠ X.id <;> simp [h]) _ db.nextId]
        cases hg : getTodo x ⟨db.rows, db.nextId⟩ with
        | none => rw [show (⟨db.rows, db.nextId⟩ : DB) = db from rfl] at hg; rw [hg] at hX; cases hX
        | some b => rfl
    · rw [if_neg h1, getTodo_map_id _ (fun r => by by_cases h : r.id = X.id <;> simp [h]) _ db.nextId]
      cases hg : getTodo x ⟨db.rows, db.nextId⟩ with
      | none => rw [show (⟨db.rows, db.nextId⟩ : DB) = db from rfl] at hg; rw [hg] at hX; cases hX
      | some b => rfl

/-- Witness for the amended C5 theorem: a concrete out-of-range create (order
9 on a one-row store) and out-of-range move (target 7) both execute. -/
theorem noPositionRangeCheckW :
    (((createTodo ⟨"z", "z", 9⟩ 3 dbOne).2.rows.length = dbOne.rows.length + 1 ∧
        (createTodo ⟨"z", "z", 9⟩ 3 dbOne).1.order = 9 ∧
        (createTodo ⟨"z", "z", 9⟩ 3 dbOne).1 ∈ (createTodo ⟨"z", "z", 9⟩ 3 dbOne).2.rows) ∧
      (getTodo 0 dbOne = some ⟨0, "a", "a", none, none, 0, 0, 1⟩ →
        (updateTodo ⟨0, none, none, some 7⟩ 3 dbOne).1.isSome = true)) ∧
      getTodo 0 dbOne = some ⟨0, "a", "a", none, none, 0, 0, 1⟩ :=
  ⟨noPositionRangeCheck ⟨"z", "z", 9⟩ 3 dbOne 0 7 ⟨0, "a", "a", none, none, 0, 0, 1⟩, by decide⟩

/-! ### Moving an item to its own position -/

/-- C6 counterexample — the claim "update(id=X, order=o) where o equals X's
current order changes nothing and returns X unchanged" is false in one
respect: the write still happens and refreshes `updatedAt`.  On a one-row
database whose row has `updatedAt = 0`, the no-op move at time 7 returns the
row with `updatedAt = 7`, not the row unchanged. -/
theorem moveNoOpCex :
    ((updateTodo ⟨0, none, none, some 1⟩ 7 dbOne).1).map (fun r => r.updatedAt) = some 7 ∧
      (getTodo 0 dbOne).map (fun r => r.updatedAt) = some 0 ∧ (7 : Nat) ≠ 0 :=
  ⟨by decide, by decide, by decide⟩

/-- C6 amended — a move to the item's own current order performs no shift and
is a no-op success, not an error: it changes no `title`, `description`,
`order` or status field of any item, and every other row is preserved
verbatim; the sole effect is that X's `updatedAt` is refreshed, and the
returned item is exactly X with that one field updated. -/
theorem moveNoOpOnlyUpdatedAt (db : DB) (x : Nat) (X : Todo) (now : Nat)
    (hnd : (db.rows.map (fun r => r.id)).Nodup) (hX : getTodo x db = some X) :
    (updateTodo ⟨x, none, none, some X.order⟩ now db).1 = some { X with updatedAt := now } ∧
      (updateTodo ⟨x, none, none, some X.order⟩ now db).2.rows =
        db.rows.map (fun r => if r.id = x then { r with updatedAt := now } else r) ∧
      (updateTodo ⟨x, none, none, some X.order⟩ now db).2.nextId = db.nextId := by
  have hXid : X.id = x := (getTodo_decomp hX).1
  obtain ⟨-, l1, l2, hsplit, hl1, hl2⟩ := getTodo_decomp_nodup hX hnd
  have huniq : ∀ r ∈ db.rows, r.id = x → r = X := by
    intro r hr hrid
    rw [hsplit] at hr
    rcases List.mem_append.1 hr with hr1 | hr2
    · exact absurd hrid (hl1 r hr1)
    · rcases List.mem_cons.1 hr2 with rfl | hr2'
      · rfl
      · exact absurd hrid (hl2 r hr2')
  simp only [updateTodo, hX]
  rw [if_neg (by simp)]
  have hrows : db.rows.map (fun r =>
      if r.id = X.id then
        { r with
            title := pyOr none X.title
            description := pyOr none X.description
            order := (some X.order).getD X.order
            updatedAt := now }
      else r) =
      db.rows.map (fun r => if r.id = x then { r with updatedAt := now } else r) := by
    apply List.map_congr_left
    intro r hr
    by_cases hid : r.id = X.id
    · have hrX : r = X := huniq r hr (by rw [hid, hXid])
      subst hrX
      simp [pyOr, hXid]
    · rw [if_neg hid, if_neg (fun h => hid (by rw [h, hXid]))]
  refine ⟨?_, by simpa using hrows, trivial⟩
  show getTodo x ⟨_, db.nextId⟩ = _
  rw [show (⟨db.rows.map (fun r =>
      if r.id = X.id then
        { r with
            title := pyOr none X.title
            description := pyOr none X.description
            order := (some X.order).getD X.order
            updatedAt := now }
      else r), db.nextId⟩ : DB) = ⟨db.rows.map (fun r => if r.id = x then { r with updatedAt := now } else r), db.nextId⟩ from by rw [hrows],
    getTodo_map_id _ (fun r => by by_cases h : r.id = x <;> simp [h]) _ db.nextId]
  rw [show getTodo x ⟨db.rows, db.nextId⟩ = some X from hX]
  simp [hXid]

/-- Witness for the amended C6 theorem at the one-row database. -/
theorem moveNoOpOnlyUpdatedAtW :
    ((updateTodo ⟨0, none, none, some 1⟩ 7 dbOne).1 =
        some { (⟨0, "a", "a", none, none, 0, 0, 1⟩ : Todo) with updatedAt := 7 } ∧
      (updateTodo ⟨0, none, none, some 1⟩ 7 dbOne).2.rows =
        dbOne.rows.map (fun r => if r.id = 0 then { r with updatedAt := 7 } else r) ∧
      (updateTodo ⟨0, none, none, some 1⟩ 7 dbOne).2.nextId = dbOne.nextId) ∧
      (dbOne.rows.map (fun r => r.id)).Nodup ∧
      getTodo 0 dbOne = some ⟨0, "a", "a", none, none, 0, 0, 1⟩ :=
  ⟨moveNoOpOnlyUpdatedAt dbOne 0 ⟨0, "a", "a", none, none, 0, 0, 1⟩ 7 (by decide) (by decide),
    by decide, by decide⟩

/-! ### Skip eligibility -/

/-- C8 — Skip exclusion: for a completed item, `skip_todos([X])` changes
nothing (the whole database is returned untouched) and X is absent from the
returned list; for a non-completed item — whether Active or already Skipped —
the row is re-written with `skippedAt = now` (so an Active item transitions to
Skipped, an already-Skipped item stays Skipped), its `completedAt` is
untouched, and the updated row is exactly the one appearing in the returned
list. -/
theorem skipExclusion (db : DB) (x : Nat) (X : Todo) (now : Nat)
    (hX : getTodo x db = some X) :
    (X.completedAt.isSome = true → skipTodos [x] now db = ([], db)) ∧
      (X.completedAt = none →
        (skipTodos [x] now db).1 =
            [some { X with skippedAt := some now, updatedAt := now }] ∧
          getTodo x (skipTodos [x] now db).2 =
            some { X with skippedAt := some now, updatedAt := now }) := by
  have hXid : X.id = x := (getTodo_decomp hX).1
  constructor
  · intro hc
    have hnotnone : X.completedAt.isNone = false := by
      cases h : X.completedAt with
      | none => rw [h] at hc; cases hc
      | some t => rfl
    simp [skipTodos, skipStep, hX, hnotnone]
  · intro hc
    have hisnone : X.completedAt.isNone = true := by rw [hc]; rfl
    have hmap : getTodo x ⟨db.rows.map (fun r =>
        if r.id = x ∧ r.completedAt = none then
          { r with skippedAt := some now, updatedAt := now }
        else r), db.nextId⟩ =
        some { X with skippedAt := some now, updatedAt := now } := by
      rw [getTodo_map_id _ (fun r => by
        by_cases h : r.id = x ∧ r.completedAt = none <;> simp [h]) _ db.nextId]
      rw [show getTodo x ⟨db.rows, db.nextId⟩ = some X from hX]
      simp [hXid, hc]
    simp only [skipTodos, List.foldl_cons, List.foldl_nil, skipStep, hX, hisnone, if_pos]
    exact ⟨by rw [hmap]; rfl, by rw [hmap]⟩

/-- Witness for C8 at a one-row database holding one active item. -/
theorem skipExclusionW :
    (((⟨0, "a", "a", none, none, 0, 0, 1⟩ : Todo).completedAt.isSome = true →
        skipTodos [0] 3 dbOne = ([], dbOne)) ∧
      ((⟨0, "a", "a", none, none, 0, 0, 1⟩ : Todo).completedAt = none →
        (skipTodos [0] 3 dbOne).1 =
            [some { (⟨0, "a", "a", none, none, 0, 0, 1⟩ : Todo) with
              skippedAt := some 3, updatedAt := 3 }] ∧
          getTodo 0 (skipTodos [0] 3 dbOne).2 =
            some { (⟨0, "a", "a", none, none, 0, 0, 1⟩ : Todo) with
              skippedAt := some 3, updatedAt := 3 })) ∧
      getTodo 0 dbOne = some ⟨0, "a", "a", none, none, 0, 0, 1⟩ :=
  ⟨skipExclusion dbOne 0 ⟨0, "a", "a", none, none, 0, 0, 1⟩ 3 (by decide), by decide⟩

/-! ### The cursor resolver -/

/-- C3 counterexample — the claim "the anchor is the Completed item with the
maximum `order`" is false: in `dbCursor` the completed rows are id 0 (order 1,
completed at time 10) and id 2 (order 3, completed at time 5).  The spec's
anchor (maximum order) predicts the Active row after order 3, namely id 3;
the code anchors on the *most recently completed* row (order 1) and returns
id 1 instead. -/
theorem cursorAnchorCex :
    dbCursor.rows.any (fun r => r.completedAt.isSome) = true ∧
      (getNextTodoAfterLastCompleted dbCursor).map (fun r => r.id) = some 1 ∧
      cursorSpecMaxOrderAnchor dbCursor (getNextTodoAfterLastCompleted dbCursor) = false :=
  ⟨by decide, by decide, by decide⟩

/-- C3 amended — the anchor is the Completed item with the *maximum
`completedAt` timestamp* (the most recently completed one, not the one with
maximum order), and the result is the *non-completed* item (Active or
Skipped) with the smallest order strictly greater than that anchor's order,
or none when no such item exists. -/
theorem cursorAnchorByTimestamp (db : DB)
    (h : ∃ c ∈ db.rows, c.completedAt.isSome = true) :
    ∃ a ∈ db.rows, a.completedAt.isSome = true ∧
      (∀ r ∈ db.rows, r.completedAt.isSome = true →
        r.completedAt.getD 0 ≤ a.completedAt.getD 0) ∧
      (∀ b, getNextTodoAfterLastCompleted db = some b →
        b ∈ db.rows ∧ b.completedAt = none ∧ a.order < b.order ∧
          ∀ r ∈ db.rows, r.completedAt = none → a.order < r.order → b.order ≤ r.order) ∧
      (getNextTodoAfterLastCompleted db = none →
        ∀ r ∈ db.rows, ¬(r.completedAt = none ∧ a.order < r.order)) := by
  obtain ⟨c, hc, hcs⟩ := h
  cases ha : selectMinBy (fun r => r.completedAt.isSome)
      (fun r => -(r.completedAt.getD 0 : Int)) db.rows with
  | none =>
    have := @selectMinBy_isSome (fun r => r.completedAt.isSome)
      (fun r => -(r.completedAt.getD 0 : Int)) db.rows c hc hcs
    rw [ha] at this
    cases this
  | some a =>
    obtain ⟨hamem, hap, hamin⟩ :=
      (selectMinBy_spec (fun r => r.completedAt.isSome)
        (fun r => -(r.completedAt.getD 0 : Int)) db.rows).2 a ha
    refine ⟨a, hamem, hap, ?_, ?_, ?_⟩
    · intro r hr hrs
      have := hamin r hr hrs
      omega
    · intro b hb
      rw [getNextTodoAfterLastCompleted, ha] at hb
      obtain ⟨hbmem, hbp, hbmin⟩ :=
        (selectMinBy_spec _ (fun r => r.order) db.rows).2 b hb
      rw [Bool.and_eq_true, decide_eq_true_eq, Option.isNone_iff_eq_none] at hbp
      refine ⟨hbmem, hbp.1, hbp.2, ?_⟩
      intro r hr hrn hro
      exact hbmin r hr (by rw [Bool.and_eq_true, decide_eq_true_eq,
        Option.isNone_iff_eq_none]; exact ⟨hrn, hro⟩)
    · intro hnone r hr hcontra
      rw [getNextTodoAfterLastCompleted, ha] at hnone
      have hfalse := (selectMinBy_spec _ (fun r => r.order) db.rows).1 hnone r hr
      have htrue : (r.completedAt.isNone && decide (a.order < r.order)) = true := by
        rw [Bool.and_eq_true, decide_eq_true_eq, Option.isNone_iff_eq_none]
        exact ⟨hcontra.1, hcontra.2⟩
      rw [hfalse] at htrue
      cases htrue

/-- Witness for the amended C3 theorem at `dbCursor`. -/
theorem cursorAnchorByTimestampW :
    (∃ c ∈ dbCursor.rows, c.completedAt.isSome = true) ∧
      ∃ a ∈ dbCursor.rows, a.completedAt.isSome = true ∧
        (∀ r ∈ dbCursor.rows, r.completedAt.isSome = true →
          r.completedAt.getD 0 ≤ a.completedAt.getD 0) ∧
        (∀ b, getNextTodoAfterLastCompleted dbCursor = some b →
          b ∈ dbCursor.rows ∧ b.completedAt = none ∧ a.order < b.order ∧
            ∀ r ∈ dbCursor.rows, r.completedAt = none → a.order < r.order →
              b.order ≤ r.order) ∧
        (getNextTodoAfterLastCompleted dbCursor = none →
          ∀ r ∈ dbCursor.rows, ¬(r.completedAt = none ∧ a.order < r.order)) :=
  ⟨by decide, cursorAnchorByTimestamp dbCursor (by decide)⟩

/-- C4 counterexample — the claim "resolve_next never returns a Skipped item;
with no Completed items it returns the Active item with minimum order or
none" is false: `dbSkipOne` holds a single Skipped, never-completed row, so
the claim demands "none", yet the resolver returns that Skipped row (its
scans filter only on `completedAt IS NULL`). -/
theorem cursorSkippedCex :
    dbSkipOne.rows.all (fun r => r.completedAt.isNone) = true ∧
      (getNextTodoAfterLastCompleted dbSkipOne).map (fun r => r.skippedAt.isSome) =
        some true :=
  ⟨by decide, by decide⟩

/-- C4 amended — the resolver treats Skipped rows as eligible (only
`completedAt` is consulted): with no Completed items it returns the
*non-completed* row (Active or Skipped) of minimum order — some row whenever
the table is non-empty, none exactly when it is empty; with all items
Completed it returns none. -/
theorem cursorFallbackNonCompleted (db : DB) :
    ((∀ r ∈ db.rows, r.completedAt = none) →
        (db.rows = [] → getNextTodoAfterLastCompleted db = none) ∧
          (∀ b, getNextTodoAfterLastCompleted db = some b →
            b ∈ db.rows ∧ ∀ r ∈ db.rows, b.order ≤ r.order) ∧
          (db.rows ≠ [] → (getNextTodoAfterLastCompleted db).isSome = true)) ∧
      ((∀ r ∈ db.rows, r.completedAt.isSome = true) →
        getNextTodoAfterLastCompleted db = none) := by
  constructor
  · intro hall
    have hanchor : selectMinBy (fun r => r.completedAt.isSome)
        (fun r => -(r.completedAt.getD 0 : Int)) db.rows = none := by
      cases h : selectMinBy (fun r => r.completedAt.isSome)
          (fun r => -(r.completedAt.getD 0 : Int)) db.rows with
      | none => rfl
      | some b =>
        obtain ⟨hbmem, hbp, -⟩ :=
          (selectMinBy_spec (fun r => r.completedAt.isSome)
            (fun r => -(r.completedAt.getD 0 : Int)) db.rows).2 b h
        rw [hall b hbmem] at hbp
        cases hbp
    refine ⟨?_, ?_, ?_⟩
    · intro hnil
      simp only [getNextTodoAfterLastCompleted, hanchor, hnil]
      rfl
    · intro b hb
      simp only [getNextTodoAfterLastCompleted, hanchor] at hb
      obtain ⟨hbmem, -, hbmin⟩ :=
        (selectMinBy_spec (fun r => r.completedAt.isNone) (fun r => r.order) db.rows).2 b hb
      refine ⟨hbmem, ?_⟩
      intro r hr
      exact hbmin r hr (by rw [Option.isNone_iff_eq_none]; exact hall r hr)
    · intro hne
      obtain ⟨r, hr⟩ := List.exists_mem_of_ne_nil db.rows hne
      simp only [getNextTodoAfterLastCompleted, hanchor]
      exact @selectMinBy_isSome (fun r => r.completedAt.isNone)
        (fun r => r.order) db.rows r hr (by rw [Option.isNone_iff_eq_none]; exact hall r hr)
  · intro hall
    cases ha : selectMinBy (fun r => r.completedAt.isSome)
        (fun r => -(r.completedAt.getD 0 : Int)) db.rows with
    | none =>
      simp only [getNextTodoAfterLastCompleted, ha]
      cases h : selectMinBy (fun r => r.completedAt.isNone) (fun r => r.order) db.rows with
      | none => rfl
      | some b =>
        obtain ⟨hbmem, hbp, -⟩ :=
          (selectMinBy_spec (fun r => r.completedAt.isNone) (fun r => r.order) db.rows).2 b h
        rw [Option.isNone_iff_eq_none] at hbp
        have hbs := hall b hbmem
        rw [hbp] at hbs
        cases hbs
    | some a =>
      simp only [getNextTodoAfterLastCompleted, ha]
      cases h : selectMinBy
          (fun r => r.completedAt.isNone && decide (a.order < r.order))
          (fun r => r.order) db.rows with
      | none => rfl
      | some b =>
        obtain ⟨hbmem, hbp, -⟩ := (selectMinBy_spec _ (fun r => r.order) db.rows).2 b h
        rw [Bool.and_eq_true, Option.isNone_iff_eq_none] at hbp
        have := hall b hbmem
        rw [hbp.1] at this
        cases this

/-- Witness for the amended C4 theorem: the no-completed case at the one-row
skipped database, plus the all-completed case at a fully completed database. -/
theorem cursorFallbackNonCompletedW :
    ((dbSkipOne.rows = [] → getNextTodoAfterLastCompleted dbSkipOne = none) ∧
        (∀ b, getNextTodoAfterLastCompleted dbSkipOne = some b →
          b ∈ dbSkipOne.rows ∧ ∀ r ∈ dbSkipOne.rows, b.order ≤ r.order) ∧
        (dbSkipOne.rows ≠ [] →
          (getNextTodoAfterLastCompleted dbSkipOne).isSome = true)) ∧
      getNextTodoAfterLastCompleted dbDone = none :=
  ⟨(cursorFallbackNonCompleted dbSkipOne).1 (by decide),
    (cursorFallbackNonCompleted dbDone).2 (by decide)⟩

/-! ### The batch-insert sort -/

theorem insertKeyLt_asymm {a b : InsertTodoSchema} (h : insertKeyLt a b = true) :
    insertKeyLt b a = false := by
  cases ha : a.order <;> cases hb : b.order <;>
    (try simp_all [insertKeyLt]) <;> (try omega)

theorem insertKeyLt_lt_of_le {x y z : InsertTodoSchema} (h1 : insertKeyLt x y = true)
    (h2 : insertKeyLt z y = false) : insertKeyLt z x = false := by
  cases hx : x.order <;> cases hy : y.order <;> cases hz : z.order <;>
    (try simp_all [insertKeyLt]) <;> (try omega)

theorem mem_insOrdered {α : Type} (lt : α → α → Bool) (x : α) :
    ∀ (l : List α) (z : α), z ∈ insOrdered lt x l ↔ z = x ∨ z ∈ l := by
  intro l
  induction l with
  | nil => intro z; simp [insOrdered]
  | cons y ys ih =>
    intro z
    unfold insOrdered
    by_cases h : lt x y
    · rw [if_pos h]
      simp [List.mem_cons]
    · rw [if_neg h]
      simp only [List.mem_cons, ih]
      tauto

theorem insOrdered_sorted (x : InsertTodoSchema) :
    ∀ l : List InsertTodoSchema,
      l.Pairwise (fun a b => insertKeyLt b a = false) →
      (insOrdered insertKeyLt x l).Pairwise (fun a b => insertKeyLt b a = false) := by
  intro l
  induction l with
  | nil => intro _; simp [insOrdered]
  | cons y ys ih =>
    intro hl
    rw [List.pairwise_cons] at hl
    unfold insOrdered
    by_cases h : insertKeyLt x y
    · rw [if_pos h, List.pairwise_cons]
      refine ⟨?_, List.pairwise_cons.2 hl⟩
      intro z hz
      rcases List.mem_cons.1 hz with rfl | hz'
      · exact insertKeyLt_asymm h
      · exact insertKeyLt_lt_of_le h (hl.1 z hz')
    · rw [if_neg h, List.pairwise_cons]
      constructor
      · intro z hz
        rcases (mem_insOrdered insertKeyLt x ys z).1 hz with rfl | hz'
        · exact Bool.eq_false_iff.2 h
        · exact hl.1 z hz'
      · exact ih hl.2

theorem stableSort_go_sorted :
    ∀ (l acc : List InsertTodoSchema),
      acc.Pairwise (fun a b => insertKeyLt b a = false) →
      (l.foldl (fun acc x => insOrdered insertKeyLt x acc) acc).Pairwise
        (fun a b => insertKeyLt b a = false) := by
  intro l
  induction l with
  | nil => intro acc h; exact h
  | cons x l ih =>
    intro acc h
    exact ih _ (insOrdered_sorted x acc h)

theorem insOrdered_perm {α : Type} (lt : α → α → Bool) (x : α) :
    ∀ l : List α, (insOrdered lt x l).Perm (x :: l) := by
  intro l
  induction l with
  | nil => exact List.Perm.refl _
  | cons y ys ih =>
    unfold insOrdered
    by_cases h : lt x y
    · rw [if_pos h]
    · rw [if_neg h]
      exact (List.Perm.cons y ih).trans (List.Perm.swap x y ys)

theorem stableSort_go_perm {α : Type} (lt : α → α → Bool) :
    ∀ (l acc : List α),
      (l.foldl (fun acc x => insOrdered lt x acc) acc).Perm (acc ++ l) := by
  intro l
  induction l with
  | nil => intro acc; simp
  | cons x l ih =>
    intro acc
    exact (ih (insOrdered lt x acc)).trans
      (((insOrdered_perm lt x acc).append_right l).trans List.perm_middle.symm)

theorem insOrdered_unpos (x : InsertTodoSchema) (hx : x.order = none) :
    ∀ l : List InsertTodoSchema, insOrdered insertKeyLt x l = l ++ [x] := by
  intro l
  induction l with
  | nil => rfl
  | cons y ys ih =>
    unfold insOrdered
    rw [if_neg (by simp [insertKeyLt, hx]), ih]
    rfl

theorem insOrdered_pos_append (x : InsertTodoSchema) (hx : x.order.isSome = true) :
    ∀ (s u : List InsertTodoSchema), (∀ y ∈ u, y.order = none) →
      insOrdered insertKeyLt x (s ++ u) = insOrdered insertKeyLt x s ++ u := by
  intro s
  induction s with
  | nil =>
    intro u hu
    cases u with
    | nil => rfl
    | cons y ys =>
      obtain ⟨v, hv⟩ := Option.isSome_iff_exists.1 hx
      show insOrdered insertKeyLt x (y :: ys) = [x] ++ y :: ys
      unfold insOrdered
      rw [if_pos (by simp [insertKeyLt, hv, hu y (List.mem_cons_self y ys)])]
      rfl
  | cons y s ih =>
    intro u hu
    show insOrdered insertKeyLt x (y :: (s ++ u)) = insOrdered insertKeyLt x (y :: s) ++ u
    unfold insOrdered
    by_cases h : insertKeyLt x y
    · rw [if_pos h, if_pos h]
      rfl
    · rw [if_neg h, if_neg h, ih u hu]
      rfl

theorem stableSort_go_split :
    ∀ (l s u : List InsertTodoSchema), (∀ y ∈ u, y.order = none) →
      l.foldl (fun acc x => insOrdered insertKeyLt x acc) (s ++ u) =
        (l.filter (fun d => d.order.isSome)).foldl
            (fun acc x => insOrdered insertKeyLt x acc) s ++
          (u ++ l.filter (fun d => d.order.isNone)) := by
  intro l
  induction l with
  | nil => intro s u hu; simp
  | cons x l ih =>
    intro s u hu
    by_cases hx : x.order.isSome
    · rw [List.foldl_cons, insOrdered_pos_append x hx s u hu, ih _ u hu,
        List.filter_cons_of_pos (by simpa using hx),
        List.filter_cons_of_neg
          (by simp only [Option.isNone_iff_eq_none]; exact Option.isSome_iff_ne_none.1 hx)]
      rfl
    · have hxn : x.order = none := Option.not_isSome_iff_eq_none.1 hx
      have hu' : ∀ y ∈ u ++ [x], y.order = none := by
        intro y hy
        rcases List.mem_append.1 hy with h | h
        · exact hu y h
        · rw [List.mem_singleton.1 h]
          exact hxn
      rw [List.foldl_cons, insOrdered_unpos x hxn (s ++ u), List.append_assoc,
        ih s (u ++ [x]) hu',
        List.filter_cons_of_neg (by simpa using hx),
        List.filter_cons_of_pos (by simp [hxn])]
      simp

/-- C7 — Batch insert processing order: `insert_todos` is exactly the
sequential application of the single `insert_todo` to the batch stably sorted
by the key `(order is None, order)`; that sort places the positioned entries
first in ascending requested order (the output is sorted and a permutation of
the batch), and the unpositioned entries at the end in their original batch
order; and the concrete batch of three items each requesting order 1, run on
the empty store, yields orders 3, 2, 1 for the first, second and third batch
entries — a duplicate-free permutation of `{1, 2, 3}`. -/
theorem insertBatchProcessing :
    (∀ (batch : List InsertTodoSchema) (now : Nat) (db : DB),
        insertTodos batch now db =
          (stableSort insertKeyLt batch).foldl
            (fun acc data =>
              (acc.1 ++ [(insertTodo data now acc.2).1], (insertTodo data now acc.2).2))
            ([], db)) ∧
      (∀ l : List InsertTodoSchema,
        stableSort insertKeyLt l =
          stableSort insertKeyLt (l.filter (fun d => d.order.isSome)) ++
            l.filter (fun d => d.order.isNone)) ∧
      (∀ l : List InsertTodoSchema,
        (stableSort insertKeyLt l).Pairwise (fun a b => insertKeyLt b a = false)) ∧
      (∀ l : List InsertTodoSchema, (stableSort insertKeyLt l).Perm l) ∧
      ((insertTodos [⟨"a", "a", some 1⟩, ⟨"b", "b", some 1⟩, ⟨"c", "c", some 1⟩]
            0 emptyDB).2.rows.map (fun r => (r.id, r.order)) =
          [(0, 3), (1, 2), (2, 1)] ∧
        isDense (insertTodos [⟨"a", "a", some 1⟩, ⟨"b", "b", some 1⟩, ⟨"c", "c", some 1⟩]
          0 emptyDB).2 = true) := by
  refine ⟨fun batch now db => rfl, ?_, ?_, ?_, by decide, by decide⟩
  · intro l
    exact stableSort_go_split l [] [] (by simp)
  · intro l
    exact stableSort_go_sorted l [] (List.Pairwise.nil)
  · intro l
    exact (stableSort_go_perm insertKeyLt l []).trans (by simp)

/-! ### Density preservation -/

theorem order_bounds_of_denseCount {rows : List Todo}
    (hc : ∀ k : Int, ordCount k rows = if 1 ≤ k ∧ k ≤ (rows.length : Int) then 1 else 0)
    {r : Todo} (hr : r ∈ rows) : 1 ≤ r.order ∧ r.order ≤ (rows.length : Int) := by
  have hpos := ordCount_pos_of_mem hr
  rw [hc r.order] at hpos
  split_ifs at hpos with h
  · exact h
  · omega

theorem ordCount_split (k : Int) (l1 l2 : List Todo) (X : Todo) :
    ordCount k (l1 ++ X :: l2) =
      ordCount k l1 + ((if X.order = k then 1 else 0) + ordCount k l2) := by
  rw [ordCount_append, ordCount_cons]

theorem ordCount_map_order_preserving (f : Todo → Todo) (k : Int) :
    ∀ l : List Todo, (∀ r ∈ l, (f r).order = r.order) →
      ordCount k (l.map f) = ordCount k l := by
  intro l
  induction l with
  | nil => intro _; rfl
  | cons r rs ih =>
    intro h
    simp only [List.map_cons, ordCount_cons, h r (List.mem_cons_self r rs),
      ih fun s hs => h s (List.mem_cons_of_mem r hs)]

/-- Invariant preservation for any rewrite that keeps every row's id and (on
the rows actually present) its order. -/
theorem DBInv_map_preserving {db : DB} (hInv : DBInv db) (f : Todo → Todo)
    (hfid : ∀ r, (f r).id = r.id) (hford : ∀ r ∈ db.rows, (f r).order = r.order) :
    DBInv ⟨db.rows.map f, db.nextId⟩ := by
  obtain ⟨hc, hnd, hb⟩ := hInv
  refine ⟨?_, ?_, ?_⟩
  · intro k
    simp only [List.length_map]
    rw [ordCount_map_order_preserving f k db.rows hford]
    exact hc k
  · rw [map_proj_of_preserved f (fun r => r.id) hfid]
    exact hnd
  · intro r hr
    obtain ⟨s, hs, rfl⟩ := List.mem_map.1 hr
    rw [hfid s]
    exact hb s hs

/-- Invariant preservation for the insert core (shift at `p`, then append a
fresh row at order `p`), for `p` within `[1, N+1]`. -/
theorem DBInv_insert_core {db : DB} (hInv : DBInv db) (p : Int) (hp1 : 1 ≤ p)
    (hp2 : p ≤ (db.rows.length : Int) + 1) (title desc : String) (now : Nat) :
    DBInv ⟨shiftUpFrom p db.rows ++ [mkTodo db.nextId title desc now p], db.nextId + 1⟩ := by
  obtain ⟨hc, hnd, hb⟩ := hInv
  refine ⟨?_, ?_, ?_⟩
  · intro k
    have hlen : (shiftUpFrom p db.rows ++ [mkTodo db.nextId title desc now p]).length =
        db.rows.length + 1 := by simp [shiftUpFrom]
    rw [hlen, ordCount_append, ordCount_shiftUpFrom]
    have h1 := hc k
    have h2 := hc (k - 1)
    simp only [ordCount_cons, ordCount_nil, mkTodo]
    push_cast
    split_ifs at h1 h2 ⊢ <;> omega
  · have hids : (shiftUpFrom p db.rows).map (fun r => r.id) =
        db.rows.map (fun r => r.id) :=
      map_proj_of_preserved
        (fun r => if p ≤ r.order then { r with order := r.order + 1 } else r)
        (fun r => r.id) (fun r => by by_cases h : p ≤ r.order <;> simp [h]) db.rows
    rw [List.map_append, hids]
    rw [List.nodup_append]
    refine ⟨hnd, List.nodup_singleton _, ?_⟩
    intro a ha hamem
    obtain ⟨s, hs, rfl⟩ := List.mem_map.1 ha
    have : s.id < db.nextId := hb s hs
    simp only [List.map_cons, List.map_nil, mkTodo] at hamem
    rw [List.mem_singleton.1 hamem] at this
    exact absurd this (lt_irrefl _)
  · intro r hr
    rcases List.mem_append.1 hr with h | h
    · simp only [shiftUpFrom] at h
      obtain ⟨s, hs, rfl⟩ := List.mem_map.1 h
      have hlt : s.id < db.nextId := hb s hs
      by_cases hcase : p ≤ s.order <;> simp [hcase] <;> omega
    · rw [List.mem_singleton.1 h]
      exact Nat.lt_succ_self _

theorem DBInv_createTodo {db : DB} (hInv : DBInv db) (d : CreateTodoSchema) (now : Nat)
    (hp1 : 1 ≤ d.order) (hp2 : d.order ≤ (db.rows.length : Int) + 1) :
    DBInv (createTodo d now db).2 :=
  DBInv_insert_core hInv d.order hp1 hp2 d.title d.description now

theorem DBInv_insertTodo {db : DB} (hInv : DBInv db) (d : InsertTodoSchema) (now : Nat)
    (hp : ∀ p, d.order = some p → 1 ≤ p ∧ p ≤ (db.rows.length : Int) + 1) :
    DBInv (insertTodo d now db).2 := by
  cases ho : d.order with
  | none =>
    have hmax : maxOrder db = (db.rows.length : Int) := maxOrder_of_denseCount hInv.1
    have core := DBInv_insert_core hInv (maxOrder db + 1) (by omega)
      (by omega) d.title d.description now
    simpa [insertTodo, ho] using core
  | some p =>
    have core := DBInv_insert_core hInv p (hp p ho).1 (hp p ho).2 d.title d.description now
    simpa [insertTodo, ho] using core

set_option maxHeartbeats 1000000 in
/-- Density of the counts after a downward ripple (move to a higher order):
the rows beside X are rippled unconditionally, X is replaced by a row `Y` at
order `t`. -/
theorem denseCount_moveDown (l1 l2 : List Todo) (X Y : Todo) (t : Int)
    (hc : ∀ k : Int, ordCount k (l1 ++ X :: l2) =
      if 1 ≤ k ∧ k ≤ ((l1 ++ X :: l2).length : Int) then 1 else 0)
    (ht2 : t ≤ ((l1 ++ X :: l2).length : Int)) (hlt : X.order < t) (hY : Y.order = t)
    (hXb1 : 1 ≤ X.order) :
    ∀ k : Int,
      ordCount k (l1.map (fun r =>
          if X.order < r.order ∧ r.order ≤ t then { r with order := r.order - 1 } else r)) +
        ((if Y.order = k then 1 else 0) +
          ordCount k (l2.map (fun r =>
            if X.order < r.order ∧ r.order ≤ t then { r with order := r.order - 1 } else r))) =
      if 1 ≤ k ∧ k ≤ ((l1 ++ X :: l2).length : Int) then 1 else 0 := by
  intro k
  have hcomb : ∀ j : Int, ordCount j l1 + ((if X.order = j then 1 else 0) + ordCount j l2) =
      if 1 ≤ j ∧ j ≤ ((l1 ++ X :: l2).length : Int) then 1 else 0 := by
    intro j
    rw [← ordCount_split]
    exact hc j
  have hk := hcomb k
  have hk1 := hcomb (k + 1)
  have hko : ordCount X.order l1 + (1 + ordCount X.order l2) = 1 := by
    have h := hcomb X.order
    rw [if_pos rfl, if_pos ⟨hXb1, by omega⟩] at h
    exact h
  have hko1 : ordCount (X.order + 1) l1 + (0 + ordCount (X.order + 1) l2) = 1 := by
    have h := hcomb (X.order + 1)
    rw [if_neg (by omega), if_pos ⟨by omega, by omega⟩] at h
    exact h
  rw [ordCount_rippleDown X.order t k hlt l1, ordCount_rippleDown X.order t k hlt l2, hY]
  split_ifs at hk hk1 ⊢ <;> omega

set_option maxHeartbeats 1000000 in
/-- Density of the counts after an upward ripple (move to a lower order). -/
theorem denseCount_moveUp (l1 l2 : List Todo) (X Y : Todo) (t : Int)
    (hc : ∀ k : Int, ordCount k (l1 ++ X :: l2) =
      if 1 ≤ k ∧ k ≤ ((l1 ++ X :: l2).length : Int) then 1 else 0)
    (ht1 : 1 ≤ t) (hlt : t < X.order) (hY : Y.order = t)
    (hXb2 : X.order ≤ ((l1 ++ X :: l2).length : Int)) :
    ∀ k : Int,
      ordCount k (l1.map (fun r =>
          if t ≤ r.order ∧ r.order < X.order then { r with order := r.order + 1 } else r)) +
        ((if Y.order = k then 1 else 0) +
          ordCount k (l2.map (fun r =>
            if t ≤ r.order ∧ r.order < X.order then { r with order := r.order + 1 } else r))) =
      if 1 ≤ k ∧ k ≤ ((l1 ++ X :: l2).length : Int) then 1 else 0 := by
  intro k
  have hcomb : ∀ j : Int, ordCount j l1 + ((if X.order = j then 1 else 0) + ordCount j l2) =
      if 1 ≤ j ∧ j ≤ ((l1 ++ X :: l2).length : Int) then 1 else 0 := by
    intro j
    rw [← ordCount_split]
    exact hc j
  have hk := hcomb k
  have hk1 := hcomb (k - 1)
  have hko : ordCount X.order l1 + (1 + ordCount X.order l2) = 1 := by
    have h := hcomb X.order
    rw [if_pos rfl, if_pos ⟨by omega, hXb2⟩] at h
    exact h
  have hko1 : ordCount (X.order - 1) l1 + (0 + ordCount (X.order - 1) l2) = 1 := by
    have h := hcomb (X.order - 1)
    rw [if_neg (by omega), if_pos ⟨by omega, by omega⟩] at h
    exact h
  rw [ordCount_rippleUp t X.order k hlt l1, ordCount_rippleUp t X.order k hlt l2, hY]
  split_ifs at hk hk1 ⊢ <;> omega

/-- Assemble the invariant for a moved database given the count equation. -/
theorem DBInv_move_assemble (l1 l2 : List Todo) (X Y : Todo) (n : Nat) (g : Todo → Todo)
    (hInv : DBInv ⟨l1 ++ X :: l2, n⟩)
    (hgid : ∀ r, (g r).id = r.id) (hYid : Y.id = X.id)
    (hcount : ∀ k : Int,
      ordCount k (l1.map g) + ((if Y.order = k then 1 else 0) + ordCount k (l2.map g)) =
        if 1 ≤ k ∧ k ≤ ((l1 ++ X :: l2).length : Int) then 1 else 0) :
    DBInv ⟨l1.map g ++ Y :: l2.map g, n⟩ := by
  obtain ⟨hc, hnd, hb⟩ := hInv
  refine ⟨?_, ?_, ?_⟩
  · intro k
    have h := hcount k
    rw [ordCount_split k (l1.map g) (l2.map g) Y]
    simp only [List.length_append, List.length_cons, List.length_map] at h ⊢
    exact h
  · have hids : (l1.map g ++ Y :: l2.map g).map (fun r => r.id) =
        (l1 ++ X :: l2).map (fun r => r.id) := by
      simp only [List.map_append, List.map_cons]
      rw [map_proj_of_preserved g (fun r => r.id) hgid l1,
        map_proj_of_preserved g (fun r => r.id) hgid l2, hYid]
    rw [hids]
    exact hnd
  · intro r hr
    rcases List.mem_append.1 hr with h | h
    · obtain ⟨s, hs, rfl⟩ := List.mem_map.1 h
      rw [hgid s]
      exact hb s (List.mem_append_left _ hs)
    · rcases List.mem_cons.1 h with rfl | h'
      · rw [hYid]
        exact hb X (List.mem_append_right _ (List.mem_cons_self _ _))
      · obtain ⟨s, hs, rfl⟩ := List.mem_map.1 h'
        rw [hgid s]
        exact hb s (List.mem_append_right _ (List.mem_cons_of_mem _ hs))

set_option maxHeartbeats 1000000 in
/-- `update_todo` preserves the invariant whenever a requested target order
lies in `[1, N]`. -/
theorem DBInv_updateTodo {db : DB} (hInv : DBInv db) (d : UpdateTodoSchema) (now : Nat)
    (hrange : ∀ t, d.order = some t → 1 ≤ t ∧ t ≤ (db.rows.length : Int)) :
    DBInv (updateTodo d now db).2 := by
  cases hX : getTodo d.id db with
  | none => simpa [updateTodo, hX] using hInv
  | some X =>
    obtain ⟨hXid, l1, l2, hsplit, hl1, hl2⟩ := getTodo_decomp_nodup hX hInv.2.1
    have hXmem : X ∈ db.rows := by
      rw [hsplit]
      exact List.mem_append_right _ (List.mem_cons_self _ _)
    have hXb := order_bounds_of_denseCount hInv.1 hXmem
    have huniq : ∀ r ∈ db.rows, r.id = X.id → r = X := by
      intro r hr hrid
      rw [hsplit] at hr
      rcases List.mem_append.1 hr with h | h
      · exact absurd (by rw [hrid, hXid]) (hl1 r h)
      · rcases List.mem_cons.1 h with rfl | h'
        · rfl
        · exact absurd (by rw [hrid, hXid]) (hl2 r h')
    cases ho : d.order with
    | none =>
      have hres := DBInv_map_preserving hInv
        (fun r => if r.id = X.id then
          { r with
              title := pyOr d.title X.title
              description := pyOr d.description X.description
              order := X.order
              updatedAt := now }
          else r)
        (fun r => by by_cases h : r.id = X.id <;> simp [h])
        (fun r hr => by
          by_cases h : r.id = X.id
          · have hrX := huniq r hr h
            subst hrX
            simp
          · simp [h])
      simpa [updateTodo, hX, ho] using hres
    | some t =>
      obtain ⟨ht1, ht2⟩ := hrange t ho
      by_cases hne : t = X.order
      · have hres := DBInv_map_preserving hInv
          (fun r => if r.id = X.id then
            { r with
                title := pyOr d.title X.title
                description := pyOr d.description X.description
                order := t
                updatedAt := now }
            else r)
          (fun r => by by_cases h : r.id = X.id <;> simp [h])
          (fun r hr => by
            by_cases h : r.id = X.id
            · have hrX := huniq r hr h
              subst hrX
              simp [hne]
            · simp [h])
        have hcode : (updateTodo d now db).2 =
            ⟨db.rows.map (fun r => if r.id = X.id then
              { r with
                  title := pyOr d.title X.title
                  description := pyOr d.description X.description
                  order := t
                  updatedAt := now }
              else r), db.nextId⟩ := by
          simp [updateTodo, hX, ho, hne]
        rw [hcode]
        exact hres
      · have hInvS : DBInv ⟨l1 ++ X :: l2, db.nextId⟩ := by
          rw [← hsplit]
          exact hInv
        have hcS : ∀ k : Int, ordCount k (l1 ++ X :: l2) =
            if 1 ≤ k ∧ k ≤ ((l1 ++ X :: l2).length : Int) then 1 else 0 := by
          have h := hInv.1
          rw [hsplit] at h
          exact h
        have htS2 : t ≤ ((l1 ++ X :: l2).length : Int) := by
          rw [← hsplit]
          exact ht2
        by_cases hlt : X.order < t
        · -- moving to a higher order: downward ripple on (X.order, t]
          have hform : (updateTodo d now db).2 =
              ⟨l1.map (fun r =>
                  if X.order < r.order ∧ r.order ≤ t then { r with order := r.order - 1 } else r) ++
                { X with
                    title := pyOr d.title X.title
                    description := pyOr d.description X.description
                    order := t
                    updatedAt := now } ::
                l2.map (fun r =>
                  if X.order < r.order ∧ r.order ≤ t then { r with order := r.order - 1 } else r),
                db.nextId⟩ := by
            simp only [updateTodo, hX, ho, Option.getD_some]
            rw [if_pos hne, if_pos hlt]
            congr 1
            rw [hsplit, List.map_append, List.map_cons, List.map_append, List.map_cons]
            congr 1
            · rw [List.map_map]
              apply List.map_congr_left
              intro r hr
              have hrid : r.id ≠ X.id := fun h => (hl1 r hr) (by rw [h, hXid])
              by_cases hA : X.order < r.order <;> by_cases hB : r.order ≤ t <;>
                simp [hA, hB, hrid]
            · congr 1
              · simp
              · rw [List.map_map]
                apply List.map_congr_left
                intro r hr
                have hrid : r.id ≠ X.id := fun h => (hl2 r hr) (by rw [h, hXid])
                by_cases hA : X.order < r.order <;> by_cases hB : r.order ≤ t <;>
                  simp [hA, hB, hrid]
          rw [hform]
          exact DBInv_move_assemble l1 l2 X _ db.nextId _ hInvS
            (fun r => by by_cases h : X.order < r.order ∧ r.order ≤ t <;> simp [h])
            rfl
            (denseCount_moveDown l1 l2 X _ t hcS htS2 hlt rfl hXb.1)
        · -- moving to a lower order: upward ripple on [t, X.order)
          have hgt : t < X.order := by omega
          have hXbS : X.order ≤ ((l1 ++ X :: l2).length : Int) := by
            rw [← hsplit]
            exact hXb.2
          have hform : (updateTodo d now db).2 =
              ⟨l1.map (fun r =>
                  if t ≤ r.order ∧ r.order < X.order then { r with order := r.order + 1 } else r) ++
                { X with
                    title := pyOr d.title X.title
                    description := pyOr d.description X.description
                    order := t
                    updatedAt := now } ::
                l2.map (fun r =>
                  if t ≤ r.order ∧ r.order < X.order then { r with order := r.order + 1 } else r),
                db.nextId⟩ := by
            simp only [updateTodo, hX, ho, Option.getD_some]
            rw [if_pos hne, if_neg hlt]
            congr 1
            rw [hsplit, List.map_append, List.map_cons, List.map_append, List.map_cons]
            congr 1
            · rw [List.map_map]
              apply List.map_congr_left
              intro r hr
              have hrid : r.id ≠ X.id := fun h => (hl1 r hr) (by rw [h, hXid])
              by_cases hA : t ≤ r.order <;> by_cases hB : r.order < X.order <;>
                simp [hA, hB, hrid]
            · congr 1
              · simp
              · rw [List.map_map]
                apply List.map_congr_left
                intro r hr
                have hrid : r.id ≠ X.id := fun h => (hl2 r hr) (by rw [h, hXid])
                by_cases hA : t ≤ r.order <;> by_cases hB : r.order < X.order <;>
                  simp [hA, hB, hrid]
          rw [hform]
          exact DBInv_move_assemble l1 l2 X _ db.nextId _ hInvS
            (fun r => by by_cases h : t ≤ r.order ∧ r.order < X.order <;> simp [h])
            rfl
            (denseCount_moveUp l1 l2 X _ t hcS ht1 hgt rfl hXbS)

theorem DBInv_empty : DBInv emptyDB := by
  refine ⟨fun k => ?_, List.Pairwise.nil, fun r hr => absurd hr (List.not_mem_nil r)⟩
  show ordCount k [] = if 1 ≤ k ∧ k ≤ (([] : List Todo).length : Int) then 1 else 0
  rw [ordCount_nil, if_neg]
  intro hcon
  simp only [List.length_nil, Nat.cast_zero] at hcon
  omega

theorem isDense_of_DBInv {db : DB} (hInv : DBInv db) : isDense db = true := by
  rw [isDense, Bool.and_eq_true]
  constructor
  · rw [List.all_eq_true]
    intro i hi
    rw [List.mem_range] at hi
    rw [beq_iff_eq, hInv.1]
    rw [if_pos]
    constructor
    · omega
    · omega
  · rw [List.all_eq_true]
    intro r hr
    have := order_bounds_of_denseCount hInv.1 hr
    rw [Bool.and_eq_true, decide_eq_true_eq, decide_eq_true_eq]
    exact this

theorem DBInv_applyOp {db : DB} {op : TodoOp} (hInv : DBInv db)
    (hv : opWithinRange op db = true) (now : Nat) : DBInv (applyOp op now db) := by
  cases op with
  | create d =>
    rw [opWithinRange, Bool.and_eq_true, decide_eq_true_eq, decide_eq_true_eq] at hv
    exact DBInv_createTodo hInv d now hv.1 hv.2
  | insert d =>
    refine DBInv_insertTodo hInv d now ?_
    intro p hp
    rw [opWithinRange, hp, Bool.and_eq_true, decide_eq_true_eq, decide_eq_true_eq] at hv
    exact hv
  | update d =>
    refine DBInv_updateTodo hInv d now ?_
    intro t ht
    rw [opWithinRange, ht, Bool.and_eq_true, decide_eq_true_eq, decide_eq_true_eq] at hv
    exact hv
  | delete i =>
    rw [opWithinRange] at hv
    cases hv

theorem DBInv_run : ∀ (ops : List TodoOp) (now : Nat) (db : DB), DBInv db →
    validRun ops now db = true → DBInv (applyOps ops now db) := by
  intro ops
  induction ops with
  | nil => intro now db h _; exact h
  | cons op rest ih =>
    intro now db hInv hv
    rw [validRun, Bool.and_eq_true] at hv
    exact ih (now + 1) _ (DBInv_applyOp hInv hv.1 now) hv.2

theorem validRun_append_left : ∀ (l1 l2 : List TodoOp) (now : Nat) (db : DB),
    validRun (l1 ++ l2) now db = true → validRun l1 now db = true := by
  intro l1
  induction l1 with
  | nil => intro l2 now db _; rfl
  | cons op rest ih =>
    intro l2 now db h
    rw [List.cons_append, validRun, Bool.and_eq_true] at h
    rw [validRun, Bool.and_eq_true]
    exact ⟨h.1, ih l2 _ _ h.2⟩

/-- C1 counterexample — the density invariant as claimed (it should survive
every committed operation, deletion included) fails: starting from the empty
store, create at 1, create at 2 (a dense two-row store), then delete the row
at order 1.  The deletion commits (`rowcount > 0`), yet the surviving order
set is `{2}`, not `{1}`: `delete_todo` never reflows. -/
theorem densityDeleteCex :
    isDense dbTwo = true ∧ (deleteTodo 0 dbTwo).1 = true ∧
      isDense (deleteTodo 0 dbTwo).2 = false :=
  ⟨by decide, by decide, by decide⟩

/-- C1 amended — density holds after every committed operation for sequences
of create/insert/move operations whose requested positions are within range
(`[1, N+1]` for create and insert, `[1, N]` for a move; an insert without a
position is always in range); delete is excluded because `delete_todo`
performs no reflow and breaks density whenever the deleted row is not at the
maximum order.  Stated over an arbitrary split `l1 ++ l2` of the sequence so
that it covers the state after each intermediate operation, starting from the
empty store. -/
theorem densityPreserved (l1 l2 : List TodoOp) (now : Nat)
    (h : validRun (l1 ++ l2) now emptyDB = true) :
    isDense (applyOps l1 now emptyDB) = true :=
  isDense_of_DBInv (DBInv_run l1 now emptyDB DBInv_empty (validRun_append_left l1 l2 now emptyDB h))

/-- Witness for the amended C1 theorem: create at 1, insert at 1, move the
first row to position 2, then (in the remainder of the run) insert at the
end. -/
theorem densityPreservedW :
    validRun ([TodoOp.create ⟨"a", "a", 1⟩, TodoOp.insert ⟨"b", "b", some 1⟩,
        TodoOp.update ⟨0, none, none, some 2⟩] ++ [TodoOp.insert ⟨"c", "c", none⟩])
        0 emptyDB = true ∧
      isDense (applyOps [TodoOp.create ⟨"a", "a", 1⟩, TodoOp.insert ⟨"b", "b", some 1⟩,
        TodoOp.update ⟨0, none, none, some 2⟩] 0 emptyDB) = true :=
  ⟨by decide,
    densityPreserved [TodoOp.create ⟨"a", "a", 1⟩, TodoOp.insert ⟨"b", "b", some 1⟩,
      TodoOp.update ⟨0, none, none, some 2⟩] [TodoOp.insert ⟨"c", "c", none⟩] 0 (by decide)⟩
